import Mathlib

/-!
Verification of the Huffman encoder in `src/main.py`.

The Python program is embedded shallowly:

* `HuffmanNode` mirrors the Python class: a frequency, two optional children
  and an optional content byte (leaves carry `some content` and no children,
  internal nodes carry both children and no content).
* CPython's `heapq` module (`heappush`, `heappop`, `_siftdown`, `_siftup`)
  is embedded over `List HuffmanNode`; the `__lt__` of `HuffmanNode`
  compares frequencies only, exactly as in the source.
* Byte sequences are `List Nat`; a file is a `List (List Nat)` of lines, as
  produced by `readlines()`.  The compressed "bits" are the ASCII bytes
  48 (`b'0'`) and 49 (`b'1'`), as in the source.
* Python exceptions (`IndexError` from popping an empty heap, the explicit
  `raise` in `compress_file`, the `ValueError` in `get_next_val`, attribute
  access on `None`) are modelled as `none` of an `Option` result.
-/

/-- Embedding of the Python class `HuffmanNode`: `_freq`, the two entries of
`_children` (`'l'` and `'r'`), and `_content`.  Children and content are
optional, as in the Python constructor defaults. -/
inductive HuffmanNode : Type where
  | mk (freq : Nat) (lchild rchild : Option HuffmanNode) (content : Option Nat)

instance : Inhabited HuffmanNode := ⟨.mk 0 none none none⟩

/-- The `_freq` field. -/
def HuffmanNode.freq : HuffmanNode → Nat
  | .mk f _ _ _ => f

/-- The `'l'` entry of `_children` (`get_child('l')`). -/
def HuffmanNode.lchild : HuffmanNode → Option HuffmanNode
  | .mk _ l _ _ => l

/-- The `'r'` entry of `_children` (`get_child('r')`). -/
def HuffmanNode.rchild : HuffmanNode → Option HuffmanNode
  | .mk _ _ r _ => r

/-- The `_content` field. -/
def HuffmanNode.content : HuffmanNode → Option Nat
  | .mk _ _ _ c => c

/-- `is_leaf`: both children are `None`. -/
def HuffmanNode.isLeaf (t : HuffmanNode) : Bool :=
  t.lchild.isNone && t.rchild.isNone

@[simp] theorem HuffmanNode.freq_mk (f l r c) : (HuffmanNode.mk f l r c).freq = f := rfl
@[simp] theorem HuffmanNode.lchild_mk (f l r c) : (HuffmanNode.mk f l r c).lchild = l := rfl
@[simp] theorem HuffmanNode.rchild_mk (f l r c) : (HuffmanNode.mk f l r c).rchild = r := rfl
@[simp] theorem HuffmanNode.content_mk (f l r c) : (HuffmanNode.mk f l r c).content = c := rfl

/-- CPython `heapq._siftdown(heap, startpos, pos)`: `newitem` sits at `pos`;
parents larger than it (by `HuffmanNode.__lt__`, i.e. frequency comparison)
are moved down until `newitem`'s place is found. -/
def siftdownLoop (h : List HuffmanNode) (startpos pos : Nat) (newitem : HuffmanNode) :
    List HuffmanNode :=
  if startpos < pos then
    if newitem.freq < (h.getD ((pos - 1) / 2) default).freq then
      siftdownLoop (h.set pos (h.getD ((pos - 1) / 2) default)) startpos ((pos - 1) / 2) newitem
    else
      h.set pos newitem
  else
    h.set pos newitem
termination_by pos
decreasing_by
  have := Nat.div_le_self (pos - 1) 2
  omega

/-- The child index chosen by CPython `heapq._siftup`: the right child
`2*pos+2` when it exists and the left child is not smaller, else the left
child `2*pos+1`. -/
def siftupChild (h : List HuffmanNode) (pos : Nat) : Nat :=
  if 2 * pos + 2 < h.length ∧
      ¬ (h.getD (2 * pos + 1) default).freq < (h.getD (2 * pos + 2) default).freq then
    2 * pos + 2
  else
    2 * pos + 1

/-- CPython `heapq._siftup(heap, pos)` (with `startpos` the initial `pos`):
bubble the hole at `pos` down to a leaf, then place `newitem` and restore
with `_siftdown`. -/
def siftupLoop (h : List HuffmanNode) (startpos pos : Nat) (newitem : HuffmanNode) :
    List HuffmanNode :=
  if hc : 2 * pos + 1 < h.length then
    siftupLoop (h.set pos (h.getD (siftupChild h pos) default)) startpos (siftupChild h pos)
      newitem
  else
    siftdownLoop (h.set pos newitem) startpos pos newitem
termination_by h.length - pos
decreasing_by
  have h1 : pos < siftupChild h pos := by
    unfold siftupChild
    split <;> omega
  simp only [List.length_set]
  omega

/-- CPython `heapq.heappush`: append, then sift down from the new slot. -/
def heappush (heap : List HuffmanNode) (item : HuffmanNode) : List HuffmanNode :=
  siftdownLoop (heap ++ [item]) 0 heap.length item

/-- CPython `heapq.heappop`: pop the last element; if the heap is still
non-empty, return the old root and sift the last element down from the root.
Popping an empty heap raises `IndexError`, modelled as `none`. -/
def heappop (heap : List HuffmanNode) : Option (HuffmanNode × List HuffmanNode) :=
  match heap with
  | [] => none
  | x :: xs =>
    if xs.isEmpty then
      some (x, [])
    else
      some (x, siftupLoop (xs.getLastD default :: xs.dropLast) 0 0 (xs.getLastD default))

theorem siftdownLoop_length (startpos pos : Nat) (h : List HuffmanNode) (x : HuffmanNode) :
    (siftdownLoop h startpos pos x).length = h.length := by
  induction pos using Nat.strong_induction_on generalizing h with
  | _ pos ih =>
    rw [siftdownLoop]
    split
    · split
      · rw [ih ((pos - 1) / 2) (by have := Nat.div_le_self (pos - 1) 2; omega)]
        simp
      · simp
    · simp

theorem siftupLoop_length (n : Nat) :
    ∀ (h : List HuffmanNode) (startpos pos : Nat) (x : HuffmanNode), h.length - pos = n →
      (siftupLoop h startpos pos x).length = h.length := by
  induction n using Nat.strong_induction_on with
  | _ n ih =>
    intro h startpos pos x hn
    rw [siftupLoop]
    split
    · rename_i hc
      have h1 : pos < siftupChild h pos := by
        unfold siftupChild
        split <;> omega
      rw [ih (h.length - siftupChild h pos) (by omega) _ _ _ _ (by simp)]
      simp
    · rw [siftdownLoop_length]
      simp

theorem heappush_length (heap : List HuffmanNode) (x : HuffmanNode) :
    (heappush heap x).length = heap.length + 1 := by
  unfold heappush
  rw [siftdownLoop_length]
  simp

theorem heappop_length (heap : List HuffmanNode) (n : HuffmanNode) (h' : List HuffmanNode)
    (hp : heappop heap = some (n, h')) : h'.length + 1 = heap.length := by
  unfold heappop at hp
  match heap, hp with
  | x :: xs, hp =>
    by_cases hxs : xs = []
    · simp [hxs] at hp
      simp [hp.2.symm, hxs]
    · have hp3 : (if xs.isEmpty = true then some (x, ([] : List HuffmanNode))
          else some (x, siftupLoop (xs.getLastD default :: xs.dropLast) 0 0
            (xs.getLastD default))) = some (n, h') := hp
      rw [if_neg (by simpa using hxs)] at hp3
      simp only [Option.some.injEq, Prod.mk.injEq] at hp3
      rw [← hp3.2, siftupLoop_length ((xs.getLastD default :: xs.dropLast).length - 0) _ _ _ _ rfl]
      simp
      have : xs.length ≠ 0 := by simpa using hxs
      omega

theorem heappop_isSome (heap : List HuffmanNode) (hne : heap ≠ []) :
    ∃ n h', heappop heap = some (n, h') := by
  match heap with
  | x :: xs =>
    by_cases hxs : xs = []
    · exact ⟨x, [], by simp [heappop, hxs]⟩
    · exact ⟨x, _, by rw [heappop, if_neg (by simpa using hxs)]⟩

/-- `gen_huffman_tree`: repeatedly pop the two smallest nodes, merge them and
push the merge back; finally pop the root.  The Python function mutates the
caller's heap list in place, so the embedding returns the final state of that
list alongside the returned root.  `none` models the `IndexError` raised by
`heappop` on an empty heap. -/
def genHuffmanTreeState (heap : List HuffmanNode) : Option (HuffmanNode × List HuffmanNode) :=
  if 2 ≤ heap.length then
    match hp : heappop heap with
    | none => none
    | some (n1, h1) =>
      match hp2 : heappop h1 with
      | none => none
      | some (n2, h2) =>
        genHuffmanTreeState (heappush h2 (.mk (n1.freq + n2.freq) (some n1) (some n2) none))
  else
    heappop heap
termination_by heap.length
decreasing_by
  have l1 := heappop_length heap n1 h1 hp
  have l2 := heappop_length h1 n2 h2 hp2
  rw [heappush_length]
  omega

/-- The value returned by `gen_huffman_tree` (the root), discarding the final
heap state. -/
def genHuffmanTree (heap : List HuffmanNode) : Option HuffmanNode :=
  (genHuffmanTreeState heap).map Prod.fst

/-- `get_huffman_code(val, huffman_tree)`: leaf test first (`val ==
self._content`; comparing an `int` with `None` is `False` in Python, hence
`decide (c = some val)`), then the left child, then the right child.  The
path bits are the ASCII bytes 48 (`b'0'`) and 49 (`b'1'`), as in the source,
which builds the code by byte concatenation. -/
def getHuffmanCode (val : Nat) : HuffmanNode → Bool × List Nat
  | .mk _ none none c => (decide (c = some val), [])
  | .mk _ (some lt) (some rt) _ =>
    if (getHuffmanCode val lt).1 then (true, 48 :: (getHuffmanCode val lt).2)
    else if (getHuffmanCode val rt).1 then (true, 49 :: (getHuffmanCode val rt).2)
    else (false, [])
  | .mk _ (some lt) none _ =>
    if (getHuffmanCode val lt).1 then (true, 48 :: (getHuffmanCode val lt).2) else (false, [])
  | .mk _ none (some rt) _ =>
    if (getHuffmanCode val rt).1 then (true, 49 :: (getHuffmanCode val rt).2) else (false, [])

/-- `compress_file(file, huffman_tree)`: iterate over the lines and their
bytes, appending each byte's code; the `raise` on a byte missing from the
tree is modelled as `none`. -/
def compressFile (file : List (List Nat)) (t : HuffmanNode) : Option (List Nat) :=
  file.foldlM
    (fun acc line =>
      line.foldlM
        (fun acc2 ch =>
          if (getHuffmanCode ch t).1 then some (acc2 ++ (getHuffmanCode ch t).2) else none)
        acc)
    []

/-- One step of the dictionary update in `get_quantitative_heap`: increment
the count of `c` in place if the key exists, else append a new entry with
count 1 (Python dicts preserve insertion order). -/
def addChar (counts : List (Nat × Nat)) (c : Nat) : List (Nat × Nat) :=
  match counts with
  | [] => [(c, 1)]
  | (k, v) :: rest => if k = c then (k, v + 1) :: rest else (k, v) :: addChar rest c

/-- The `character_counts` dictionary of `get_quantitative_heap`, as an
insertion-ordered association list. -/
def countChars (file : List (List Nat)) : List (Nat × Nat) :=
  file.foldl (fun acc line => line.foldl addChar acc) []

/-- The heap-construction loop of `get_quantitative_heap`: push a leaf node
for every key of the dictionary, in insertion order. -/
def buildCountsHeap (counts : List (Nat × Nat)) : List HuffmanNode :=
  counts.foldl (fun h p => heappush h (.mk p.2 none none (some p.1))) []

/-- `get_quantitative_heap(file)`: count the bytes, then heap-push a leaf per
distinct byte. -/
def getQuantitativeHeap (file : List (List Nat)) : List HuffmanNode :=
  buildCountsHeap (countChars file)

/-- Sum of the line lengths of a file (the total number of pending bytes);
the termination measure of `get_next_val`. -/
def lineLens (file : List (List Nat)) : Nat :=
  (file.map List.length).sum

theorem lineLens_map_drop_le (file : List (List Nat)) :
    lineLens (file.map (List.drop 1)) ≤ lineLens file := by
  induction file with
  | nil => simp [lineLens]
  | cons l rest ih =>
    simp only [lineLens, List.map_cons, List.sum_cons] at *
    have : (l.drop 1).length ≤ l.length := by simp
    omega

/-- `get_next_val(file, huffman_tree)`: the order of tests is exactly the
source's — end of file, leaf, empty first line, then the first byte of the
first line read as an ASCII bit (`bytes(file[0])[0] - 48`).  Both bit
branches drop the first byte of every line (`[bytes(f)[1:] for f in
file]`).  `none` models the `ValueError` on a non-bit byte and the attribute
error of descending into a `None` child. -/
def getNextVal (file : List (List Nat)) (t : Option HuffmanNode) :
    Option (List (List Nat) × Option Nat) :=
  match file with
  | [] => some ([], none)
  | line :: rest =>
    match t with
    | none => none
    | some tr =>
      if tr.isLeaf then some (line :: rest, tr.content)
      else
        match line with
        | [] => getNextVal rest t
        | b :: bs =>
          if (b : Int) - 48 = 0 then
            getNextVal (((b :: bs) :: rest).map (List.drop 1)) tr.lchild
          else if (b : Int) - 48 = 1 then
            getNextVal (((b :: bs) :: rest).map (List.drop 1)) tr.rchild
          else none
termination_by file.length + lineLens file
decreasing_by
  · simp only [List.length_cons, lineLens, List.map_cons, List.sum_cons, List.length_nil]
    omega
  · have h1 := lineLens_map_drop_le rest
    simp only [List.length_cons, List.length_map, lineLens, List.map_cons, List.sum_cons,
      List.drop_succ_cons, List.drop_zero] at *
    omega
  · have h1 := lineLens_map_drop_le rest
    simp only [List.length_cons, List.length_map, lineLens, List.map_cons, List.sum_cons,
      List.drop_succ_cons, List.drop_zero] at *
    omega

/-- The decompression loop of `main()`: call `get_next_val` until it returns
`None` as value, collecting the emitted bytes.  The Python loop has no bound;
`fuel` dominates the number of iterations and `none` models both
non-termination beyond the fuel and an exception inside `get_next_val`. -/
def decodeLoop (fuel : Nat) (file : List (List Nat)) (t : HuffmanNode) : Option (List Nat) :=
  match fuel with
  | 0 => none
  | fuel' + 1 =>
    match getNextVal file (some t) with
    | none => none
    | some (_, none) => some []
    | some (file', some v) => (decodeLoop fuel' file' t).map (fun s => v :: s)

/-- The lines of a file holding the compressed payload: `compress_file`
output contains only the bytes 48 and 49, never a newline, so `readlines()`
yields no line for an empty payload and a single line otherwise. -/
def payloadLines (payload : List Nat) : List (List Nat) :=
  if payload.isEmpty then [] else [payload]

/-- The compress-then-decompress pipeline of `main()` on the lines of the
input file: build the heap and tree, compress, write and re-read the
payload, and run the decompression loop (with fuel exceeding the number of
decoded symbols).  `none` models any exception on the way. -/
def encodeDecode (lines : List (List Nat)) : Option (List Nat) :=
  match genHuffmanTreeState (getQuantitativeHeap lines) with
  | none => none
  | some (root, _) =>
    match compressFile lines root with
    | none => none
    | some payload => decodeLoop (lines.flatten.length + 1) (payloadLines payload) root

theorem siftdownLoop_go (h : List HuffmanNode) (s p : Nat) (x : HuffmanNode)
    (h1 : s < p) (h2 : x.freq < (h.getD ((p - 1) / 2) default).freq) :
    siftdownLoop h s p x
      = siftdownLoop (h.set p (h.getD ((p - 1) / 2) default)) s ((p - 1) / 2) x := by
  rw [siftdownLoop, if_pos h1, if_pos h2]

theorem siftdownLoop_stop (h : List HuffmanNode) (s p : Nat) (x : HuffmanNode)
    (h1 : ¬ s < p) : siftdownLoop h s p x = h.set p x := by
  rw [siftdownLoop, if_neg h1]

theorem siftdownLoop_place (h : List HuffmanNode) (s p : Nat) (x : HuffmanNode)
    (h1 : s < p) (h2 : ¬ x.freq < (h.getD ((p - 1) / 2) default).freq) :
    siftdownLoop h s p x = h.set p x := by
  rw [siftdownLoop, if_pos h1, if_neg h2]

theorem siftupLoop_go (h : List HuffmanNode) (s p : Nat) (x : HuffmanNode)
    (hc : 2 * p + 1 < h.length) :
    siftupLoop h s p x
      = siftupLoop (h.set p (h.getD (siftupChild h p) default)) s (siftupChild h p) x := by
  rw [siftupLoop, dif_pos hc]

theorem siftupLoop_done (h : List HuffmanNode) (s p : Nat) (x : HuffmanNode)
    (hc : ¬ 2 * p + 1 < h.length) :
    siftupLoop h s p x = siftdownLoop (h.set p x) s p x := by
  rw [siftupLoop, dif_neg hc]

theorem heappop_nil : heappop [] = none := rfl

theorem heappop_single (x : HuffmanNode) : heappop [x] = some (x, []) := by
  simp [heappop]

theorem heappop_cons (x : HuffmanNode) (xs : List HuffmanNode) (hxs : xs ≠ []) :
    heappop (x :: xs)
      = some (x, siftupLoop (xs.getLastD default :: xs.dropLast) 0 0 (xs.getLastD default)) := by
  rw [heappop, if_neg (by simpa using hxs)]

theorem genState_small (heap : List HuffmanNode) (hlen : ¬ 2 ≤ heap.length) :
    genHuffmanTreeState heap = heappop heap := by
  rw [genHuffmanTreeState, if_neg hlen]

theorem genState_step (heap h1 h2 : List HuffmanNode) (n1 n2 : HuffmanNode)
    (hlen : 2 ≤ heap.length) (hp : heappop heap = some (n1, h1))
    (hp2 : heappop h1 = some (n2, h2)) :
    genHuffmanTreeState heap
      = genHuffmanTreeState (heappush h2 (.mk (n1.freq + n2.freq) (some n1) (some n2) none)) := by
  rw [genHuffmanTreeState, if_pos hlen]
  split
  · rename_i heq
    rw [hp] at heq
    cases heq
  · rename_i n1a h1a heq
    rw [hp] at heq
    simp only [Option.some.injEq, Prod.mk.injEq] at heq
    obtain ⟨rfl, rfl⟩ := heq
    split
    · rename_i heq2
      rw [hp2] at heq2
      cases heq2
    · rename_i n2a h2a heq2
      rw [hp2] at heq2
      simp only [Option.some.injEq, Prod.mk.injEq] at heq2
      obtain ⟨rfl, rfl⟩ := heq2
      rfl

theorem getNextVal_nil (t : Option HuffmanNode) : getNextVal [] t = some ([], none) := by
  rw [getNextVal.eq_def]

theorem getNextVal_noneTree (line : List Nat) (rest : List (List Nat)) :
    getNextVal (line :: rest) none = none := by
  rw [getNextVal.eq_def]

theorem getNextVal_leaf (line : List Nat) (rest : List (List Nat)) (tr : HuffmanNode)
    (hleaf : tr.isLeaf) :
    getNextVal (line :: rest) (some tr) = some (line :: rest, tr.content) := by
  rw [getNextVal.eq_def]
  simp [hleaf]

theorem getNextVal_emptyLine (rest : List (List Nat)) (tr : HuffmanNode)
    (hleaf : ¬ tr.isLeaf) :
    getNextVal ([] :: rest) (some tr) = getNextVal rest (some tr) := by
  rw [getNextVal.eq_def]
  simp [hleaf]

theorem getNextVal_zero (b : Nat) (bs : List Nat) (rest : List (List Nat)) (tr : HuffmanNode)
    (hleaf : ¬ tr.isLeaf) (hb : b = 48) :
    getNextVal ((b :: bs) :: rest) (some tr)
      = getNextVal (((b :: bs) :: rest).map (List.drop 1)) tr.lchild := by
  rw [getNextVal.eq_def]
  simp [hleaf, hb]

theorem getNextVal_one (b : Nat) (bs : List Nat) (rest : List (List Nat)) (tr : HuffmanNode)
    (hleaf : ¬ tr.isLeaf) (hb : b = 49) :
    getNextVal ((b :: bs) :: rest) (some tr)
      = getNextVal (((b :: bs) :: rest).map (List.drop 1)) tr.rchild := by
  rw [getNextVal.eq_def]
  simp [hleaf, hb]

theorem heappush_nil (x : HuffmanNode) : heappush [] x = [x] := by
  rw [heappush]
  show siftdownLoop [x] 0 0 x = [x]
  rw [siftdownLoop_stop _ _ _ _ (by omega)]
  rfl

theorem heappush_one (x y : HuffmanNode) :
    heappush [x] y = if y.freq < x.freq then [y, x] else [x, y] := by
  rw [heappush]
  show siftdownLoop [x, y] 0 1 y = _
  by_cases hf : y.freq < x.freq
  · rw [siftdownLoop_go _ _ _ _ (by omega) (by simpa using hf)]
    show siftdownLoop [x, x] 0 0 y = _
    rw [siftdownLoop_stop _ _ _ _ (by omega)]
    simp [hf]
  · rw [siftdownLoop_place _ _ _ _ (by omega) (by simpa using hf)]
    simp [hf]

theorem heappop_pair (x y : HuffmanNode) : heappop [x, y] = some (x, [y]) := by
  rw [heappop_cons _ _ (by simp)]
  show some (x, siftupLoop [y] 0 0 y) = _
  rw [siftupLoop_done _ _ _ _ (by simp)]
  show some (x, siftdownLoop [y] 0 0 y) = _
  rw [siftdownLoop_stop _ _ _ _ (by omega)]
  rfl

theorem genState_one (x : HuffmanNode) : genHuffmanTreeState [x] = some (x, []) := by
  rw [genState_small _ (by simp), heappop_single]

theorem genState_pair (x y : HuffmanNode) :
    genHuffmanTreeState [x, y] = some (.mk (x.freq + y.freq) (some x) (some y) none, []) := by
  rw [genState_step [x, y] [y] [] x y (by simp) (heappop_pair x y) (heappop_single y)]
  rw [heappush_nil, genState_one]

theorem mset_set_add (l : List HuffmanNode) (i : Nat) (x : HuffmanNode) (hi : i < l.length) :
    (↑(l.set i x) : Multiset HuffmanNode) + {l.getD i default} = ↑l + {x} := by
  rw [List.set_eq_take_cons_drop _ hi]
  conv_rhs => rw [← List.take_append_drop i l, List.drop_eq_getElem_cons hi]
  rw [List.getD_eq_getElem l default hi]
  rw [← Multiset.coe_add, ← Multiset.coe_add]
  rw [← Multiset.cons_coe, ← Multiset.cons_coe]
  rw [← Multiset.singleton_add, ← Multiset.singleton_add]
  abel

theorem mset_set_swap (l : List HuffmanNode) (i j : Nat) (x : HuffmanNode)
    (hi : i < l.length) (hj : j < l.length) (hij : i ≠ j) :
    (↑((l.set i (l.getD j default)).set j x) : Multiset HuffmanNode) = ↑(l.set i x) := by
  have hj2 : j < (l.set i (l.getD j default)).length := by simpa using hj
  have h4 : (l.set i (l.getD j default)).getD j default = l.getD j default := by
    rw [List.getD_eq_getElem _ default hj2]
    conv_rhs => rw [List.getD_eq_getElem l default hj]
    exact List.getElem_set_ne hij hj2
  have h1 := mset_set_add (l.set i (l.getD j default)) j x hj2
  rw [h4] at h1
  have h2 := mset_set_add l i (l.getD j default) hi
  have h3 := mset_set_add l i x hi
  have key : (↑((l.set i (l.getD j default)).set j x) : Multiset HuffmanNode)
      + ({l.getD j default} + {l.getD i default})
      = ↑(l.set i x) + ({l.getD j default} + {l.getD i default}) := by
    calc (↑((l.set i (l.getD j default)).set j x) : Multiset HuffmanNode)
        + ({l.getD j default} + {l.getD i default})
        = (↑((l.set i (l.getD j default)).set j x) + {l.getD j default}) + {l.getD i default} := by
          abel
      _ = (↑(l.set i (l.getD j default)) + {x}) + {l.getD i default} := by rw [h1]
      _ = (↑(l.set i (l.getD j default)) + {l.getD i default}) + {x} := by abel
      _ = (↑l + {l.getD j default}) + {x} := by rw [h2]
      _ = (↑l + {x}) + {l.getD j default} := by abel
      _ = (↑(l.set i x) + {l.getD i default}) + {l.getD j default} := by rw [h3]
      _ = ↑(l.set i x) + ({l.getD j default} + {l.getD i default}) := by abel
  exact add_right_cancel key

theorem siftdownLoop_mset (startpos pos : Nat) (h : List HuffmanNode) (x : HuffmanNode)
    (hp : pos < h.length) :
    (↑(siftdownLoop h startpos pos x) : Multiset HuffmanNode) = ↑(h.set pos x) := by
  induction pos using Nat.strong_induction_on generalizing h with
  | _ pos ih =>
    rw [siftdownLoop]
    split
    · split
      · rename_i hsp hfr
        have hpar : (pos - 1) / 2 < pos := by
          have := Nat.div_le_self (pos - 1) 2
          omega
        rw [ih ((pos - 1) / 2) hpar _ (by simpa using Nat.lt_trans hpar hp)]
        exact mset_set_swap h pos ((pos - 1) / 2) x hp (Nat.lt_trans hpar hp) (by omega)
      · rfl
    · rfl

theorem siftupLoop_mset (n : Nat) :
    ∀ (h : List HuffmanNode) (startpos pos : Nat) (x : HuffmanNode), h.length - pos = n →
      pos < h.length →
      (↑(siftupLoop h startpos pos x) : Multiset HuffmanNode) = ↑(h.set pos x) := by
  induction n using Nat.strong_induction_on with
  | _ n ih =>
    intro h startpos pos x hn hp
    rw [siftupLoop]
    split
    · rename_i hc
      have hchildlt : siftupChild h pos < h.length := by
        unfold siftupChild
        split <;> omega
      have hchildgt : pos < siftupChild h pos := by
        unfold siftupChild
        split <;> omega
      rw [ih (h.length - siftupChild h pos) (by omega) _ _ _ _ (by simp) (by simpa using hchildlt)]
      exact mset_set_swap h pos (siftupChild h pos) x hp hchildlt (by omega)
    · rw [siftdownLoop_mset _ _ _ _ (by simpa using hp)]
      rw [List.set_set]

theorem heappush_mset (heap : List HuffmanNode) (x : HuffmanNode) :
    (↑(heappush heap x) : Multiset HuffmanNode) = x ::ₘ ↑heap := by
  rw [heappush, siftdownLoop_mset _ _ _ _ (by simp)]
  have hset : (heap ++ [x]).set heap.length x = heap ++ [x] := by
    rw [List.set_eq_take_cons_drop _ (by simp)]
    simp
  rw [hset, ← Multiset.coe_add, ← Multiset.singleton_add]
  have : (↑([x] : List HuffmanNode) : Multiset HuffmanNode) = {x} := rfl
  rw [this]
  abel

theorem heappop_mset (heap : List HuffmanNode) (n : HuffmanNode) (h' : List HuffmanNode)
    (hp : heappop heap = some (n, h')) : (↑heap : Multiset HuffmanNode) = n ::ₘ ↑h' := by
  match heap, hp with
  | x :: xs, hp =>
    by_cases hxs : xs = []
    · subst hxs
      rw [heappop_single] at hp
      simp only [Option.some.injEq, Prod.mk.injEq] at hp
      obtain ⟨rfl, rfl⟩ := hp
      rfl
    · rw [heappop_cons _ _ hxs] at hp
      simp only [Option.some.injEq, Prod.mk.injEq] at hp
      obtain ⟨rfl, rfl⟩ := hp
      rw [siftupLoop_mset ((xs.getLastD default :: xs.dropLast).length - 0) _ _ _ _ rfl (by simp)]
      rw [List.set_cons_zero]
      have hxs2 : xs.dropLast ++ [xs.getLastD default] = xs := by
        rw [List.getLastD_eq_getLast? , List.getLast?_eq_getLast _ hxs]
        simp [List.dropLast_append_getLast hxs]
      have hcomm : (↑xs.dropLast + {xs.getLastD default} : Multiset HuffmanNode)
          = ↑(xs.getLastD default :: xs.dropLast) := by
        rw [← Multiset.cons_coe, ← Multiset.singleton_add]
        abel
      calc (↑(x :: xs) : Multiset HuffmanNode) = x ::ₘ ↑xs := by rw [Multiset.cons_coe]
        _ = x ::ₘ ↑(xs.dropLast ++ [xs.getLastD default]) := by rw [hxs2]
        _ = x ::ₘ (↑xs.dropLast + {xs.getLastD default}) := by rw [← Multiset.coe_add]; rfl
        _ = x ::ₘ ↑(xs.getLastD default :: xs.dropLast) := by rw [hcomm]

/-- The multiset of leaf contents of a tree (leaves with `None` content
contribute nothing; the trees built by the program never have such leaves). -/
def leafContents : HuffmanNode → Multiset Nat
  | .mk _ none none c => match c with | some v => {v} | none => 0
  | .mk _ (some lt) (some rt) _ => leafContents lt + leafContents rt
  | .mk _ (some lt) none _ => leafContents lt
  | .mk _ none (some rt) _ => leafContents rt

/-- Shape invariant of the nodes the program builds: leaves carry a content
and no children, internal nodes carry two children and no content. -/
inductive WFTree : HuffmanNode → Prop where
  | leaf : ∀ (f c : Nat), WFTree (.mk f none none (some c))
  | node : ∀ (f : Nat) (l r : HuffmanNode), WFTree l → WFTree r →
      WFTree (.mk f (some l) (some r) none)

/-- Sum of the `_freq` fields over a multiset of nodes. -/
def freqMSum (s : Multiset HuffmanNode) : Nat :=
  (s.map HuffmanNode.freq).sum

/-- Union of the leaf contents over a multiset of nodes. -/
def leafMSum (s : Multiset HuffmanNode) : Multiset Nat :=
  (s.map leafContents).sum

@[simp] theorem leafContents_leaf (f v : Nat) :
    leafContents (.mk f none none (some v)) = {v} := rfl

@[simp] theorem leafContents_node (f : Nat) (l r : HuffmanNode) :
    leafContents (.mk f (some l) (some r) none) = leafContents l + leafContents r := rfl

theorem genState_main_aux (len : Nat) :
    ∀ heap : List HuffmanNode, heap.length = len → heap ≠ [] →
      ∃ root, genHuffmanTreeState heap = some (root, []) ∧
        root.freq = freqMSum ↑heap ∧ leafContents root = leafMSum ↑heap ∧
        ((∀ n ∈ heap, WFTree n) → WFTree root) := by
  induction len using Nat.strong_induction_on with
  | _ len ih =>
    intro heap hlen hne
    by_cases hb : 2 ≤ heap.length
    · obtain ⟨n1, h1, hp⟩ := heappop_isSome heap hne
      have hlen1 : h1.length + 1 = heap.length := heappop_length heap n1 h1 hp
      have hne1 : h1 ≠ [] := by
        intro hh
        rw [hh] at hlen1
        simp at hlen1
        omega
      obtain ⟨n2, h2, hp2⟩ := heappop_isSome h1 hne1
      have hlen2 : h2.length + 1 = h1.length := heappop_length h1 n2 h2 hp2
      have hstep := genState_step heap h1 h2 n1 n2 hb hp hp2
      have hlen3 : (heappush h2 (HuffmanNode.mk (n1.freq + n2.freq) (some n1) (some n2)
          none)).length = h2.length + 1 :=
        heappush_length h2 _
      have hne3 : heappush h2 (HuffmanNode.mk (n1.freq + n2.freq) (some n1) (some n2) none)
          ≠ [] := by
        intro hh
        rw [hh] at hlen3
        simp at hlen3
      obtain ⟨root, hgen, hfreq, hleaf, hwf⟩ :=
        ih (heappush h2 (HuffmanNode.mk (n1.freq + n2.freq) (some n1) (some n2) none)).length
          (by omega) _ rfl hne3
      have hm1 := heappop_mset heap n1 h1 hp
      have hm2 := heappop_mset h1 n2 h2 hp2
      have hm3 := heappush_mset h2 (HuffmanNode.mk (n1.freq + n2.freq) (some n1) (some n2) none)
      refine ⟨root, by rw [hstep]; exact hgen, ?_, ?_, ?_⟩
      · rw [hfreq]
        unfold freqMSum
        rw [hm3, hm1, hm2]
        simp only [Multiset.map_cons, Multiset.sum_cons, HuffmanNode.freq_mk]
        omega
      · rw [hleaf]
        unfold leafMSum
        rw [hm3, hm1, hm2]
        simp only [Multiset.map_cons, Multiset.sum_cons, leafContents_node]
        abel
      · intro hall
        have hn1 : WFTree n1 := hall n1 (by rw [← Multiset.mem_coe, hm1]; simp)
        have hm1sub : ∀ n, n ∈ h1 → n ∈ heap := by
          intro n hn
          rw [← Multiset.mem_coe, hm1]
          simp [Multiset.mem_coe, hn]
        have hn2 : WFTree n2 := hall n2 (hm1sub n2 (by rw [← Multiset.mem_coe, hm2]; simp))
        apply hwf
        intro n hn
        rw [← Multiset.mem_coe, hm3] at hn
        rcases Multiset.mem_cons.mp hn with hcase | hcase
        · subst hcase
          exact WFTree.node _ _ _ hn1 hn2
        · exact hall n (hm1sub n (by
            rw [← Multiset.mem_coe, hm2]
            exact Multiset.mem_cons.mpr (Or.inr hcase)))
    · obtain ⟨x, hx⟩ : ∃ x, heap = [x] := by
        match heap, hne with
        | [x], _ => exact ⟨x, rfl⟩
        | x :: y :: t, _ => simp at hb
      subst hx
      refine ⟨x, genState_one x, by simp [freqMSum], by simp [leafMSum], fun hall => hall x (by simp)⟩

/-- The core fact about `gen_huffman_tree`: from any non-empty heap the loop
succeeds, empties the heap, and returns a root whose frequency is the sum of
the heap's frequencies and whose leaves are the union of the heap's leaves;
the root is well-formed if all heap nodes are. -/
theorem genState_main (heap : List HuffmanNode) (hne : heap ≠ []) :
    ∃ root, genHuffmanTreeState heap = some (root, []) ∧
      root.freq = freqMSum ↑heap ∧ leafContents root = leafMSum ↑heap ∧
      ((∀ n ∈ heap, WFTree n) → WFTree root) :=
  genState_main_aux heap.length heap rfl hne

/-- Lookup in the association-list model of the `character_counts` dict
(0 for a missing key, matching `char in character_counts.keys()` being
false). -/
def lookupCount (k : Nat) : List (Nat × Nat) → Nat
  | [] => 0
  | (a, b) :: rest => if a = k then b else lookupCount k rest

/-- Total of `count * f symbol` over the entries of a count table. -/
def sumPairs (counts : List (Nat × Nat)) (f : Nat → Nat) : Nat :=
  (counts.map (fun p => p.2 * f p.1)).sum

/-- The fold of `addChar` over a flat list of bytes; `countChars` is this
fold over the concatenation of the lines. -/
def countList (chars : List Nat) : List (Nat × Nat) :=
  chars.foldl addChar []

theorem countChars_eq_countList (file : List (List Nat)) :
    countChars file = countList file.flatten := by
  suffices hgen : ∀ (fl : List (List Nat)) (acc : List (Nat × Nat)),
      fl.foldl (fun acc line => line.foldl addChar acc) acc = fl.flatten.foldl addChar acc by
    exact hgen file []
  intro fl
  induction fl with
  | nil => intro acc; rfl
  | cons line rest ih =>
    intro acc
    simp only [List.foldl_cons, List.flatten_cons, List.foldl_append]
    exact ih _

theorem addChar_nil (c : Nat) : addChar [] c = [(c, 1)] := rfl

theorem addChar_cons_eq (a b : Nat) (rest : List (Nat × Nat)) :
    addChar ((a, b) :: rest) a = (a, b + 1) :: rest := by
  simp [addChar]

theorem addChar_cons_ne (a b c : Nat) (rest : List (Nat × Nat)) (h : ¬ a = c) :
    addChar ((a, b) :: rest) c = (a, b) :: addChar rest c := by
  simp [addChar, h]

theorem lookupCount_addChar (k c : Nat) (acc : List (Nat × Nat)) :
    lookupCount k (addChar acc c) = lookupCount k acc + (if k = c then 1 else 0) := by
  induction acc with
  | nil =>
    by_cases h : k = c
    · subst h
      simp [addChar, lookupCount]
    · have h2 : ¬ c = k := fun hh => h hh.symm
      simp [addChar, lookupCount, h, h2]
  | cons p rest ih =>
    obtain ⟨a, b⟩ := p
    by_cases hac : a = c
    · subst hac
      by_cases hk : a = k
      · subst hk
        simp [addChar, lookupCount]
      · have hk2 : ¬ k = a := fun hh => hk hh.symm
        simp [addChar, lookupCount, hk, hk2]
    · by_cases hk : a = k
      · subst hk
        simp [addChar, lookupCount, hac]
      · simp [addChar, lookupCount, hac, hk, ih]

theorem keys_addChar (k c : Nat) (acc : List (Nat × Nat)) :
    k ∈ (addChar acc c).map Prod.fst ↔ k ∈ acc.map Prod.fst ∨ k = c := by
  induction acc with
  | nil =>
    simp only [addChar, List.map_cons, List.map_nil, List.mem_cons]
    simp
  | cons p rest ih =>
    obtain ⟨a, b⟩ := p
    by_cases hac : a = c
    · subst hac
      simp only [addChar_cons_eq, List.map_cons, List.mem_cons]
      tauto
    · simp only [addChar_cons_ne a b c rest hac, List.map_cons, List.mem_cons, ih]
      tauto

theorem sumPairs_addChar (c : Nat) (acc : List (Nat × Nat)) (f : Nat → Nat) :
    sumPairs (addChar acc c) f = sumPairs acc f + f c := by
  induction acc with
  | nil => simp [addChar, sumPairs]
  | cons p rest ih =>
    obtain ⟨a, b⟩ := p
    by_cases hac : a = c
    · subst hac
      simp only [addChar_cons_eq, sumPairs, List.map_cons, List.sum_cons]
      rw [Nat.succ_mul]
      omega
    · simp only [addChar_cons_ne a b c rest hac, sumPairs, List.map_cons, List.sum_cons] at *
      omega

theorem length_addChar (c : Nat) (acc : List (Nat × Nat)) :
    (addChar acc c).length ≤ acc.length + 1 := by
  induction acc with
  | nil => simp [addChar]
  | cons p rest ih =>
    obtain ⟨a, b⟩ := p
    by_cases hac : a = c
    · subst hac
      simp [addChar_cons_eq]
    · simp only [addChar_cons_ne a b c rest hac, List.length_cons]
      omega

theorem keys_countList (k : Nat) (chars : List Nat) :
    k ∈ (countList chars).map Prod.fst ↔ k ∈ chars := by
  suffices hgen : ∀ (cs : List Nat) (acc : List (Nat × Nat)),
      k ∈ ((cs.foldl addChar acc).map Prod.fst) ↔ k ∈ acc.map Prod.fst ∨ k ∈ cs by
    simpa [countList] using hgen chars []
  intro cs
  induction cs with
  | nil => simp
  | cons c rest ih =>
    intro acc
    simp only [List.foldl_cons, ih, keys_addChar, List.mem_cons]
    tauto

theorem sumPairs_countList (chars : List Nat) (f : Nat → Nat) :
    sumPairs (countList chars) f = (chars.map f).sum := by
  suffices hgen : ∀ (cs : List Nat) (acc : List (Nat × Nat)),
      sumPairs (cs.foldl addChar acc) f = sumPairs acc f + (cs.map f).sum by
    simpa [countList, sumPairs] using hgen chars []
  intro cs
  induction cs with
  | nil => simp
  | cons c rest ih =>
    intro acc
    simp only [List.foldl_cons, ih, sumPairs_addChar, List.map_cons, List.sum_cons]
    omega

theorem length_countList (chars : List Nat) :
    (countList chars).length ≤ chars.length := by
  suffices hgen : ∀ (cs : List Nat) (acc : List (Nat × Nat)),
      (cs.foldl addChar acc).length ≤ acc.length + cs.length by
    simpa using hgen chars []
  intro cs
  induction cs with
  | nil => simp
  | cons c rest ih =>
    intro acc
    have h1 := ih (addChar acc c)
    have h2 := length_addChar c acc
    simp only [List.foldl_cons, List.length_cons]
    omega

theorem countList_const (c : Nat) (chars : List Nat) (hall : ∀ x ∈ chars, x = c)
    (hne : chars ≠ []) : countList chars = [(c, chars.length)] := by
  suffices hgen : ∀ (cs : List Nat) (n : Nat), (∀ x ∈ cs, x = c) →
      cs.foldl addChar [(c, n)] = [(c, n + cs.length)] by
    match chars, hne with
    | x :: rest, _ =>
      have hx : x = c := hall x (by simp)
      subst hx
      simp only [countList, List.foldl_cons]
      have : addChar [] x = [(x, 1)] := rfl
      rw [this, hgen rest 1 (fun y hy => hall y (by simp [hy]))]
      simp [Nat.add_comm]
  intro cs
  induction cs with
  | nil => simp
  | cons d rest ih =>
    intro n hcs
    have hd : d = c := hcs d (by simp)
    subst hd
    simp only [List.foldl_cons, addChar_cons_eq]
    rw [ih (n + 1) (fun y hy => hcs y (by simp [hy]))]
    simp only [List.length_cons]
    have harith : n + 1 + rest.length = n + (rest.length + 1) := by omega
    rw [harith]

theorem buildCountsHeap_mset (counts : List (Nat × Nat)) :
    (↑(buildCountsHeap counts) : Multiset HuffmanNode)
      = ↑(counts.map (fun p => HuffmanNode.mk p.2 none none (some p.1))) := by
  suffices hgen : ∀ (cs : List (Nat × Nat)) (h0 : List HuffmanNode),
      (↑(cs.foldl (fun h p => heappush h (.mk p.2 none none (some p.1))) h0)
          : Multiset HuffmanNode)
        = ↑h0 + ↑(cs.map fun p => HuffmanNode.mk p.2 none none (some p.1)) by
    simpa [buildCountsHeap] using hgen counts []
  intro cs
  induction cs with
  | nil => simp
  | cons p rest ih =>
    intro h0
    simp only [List.foldl_cons, ih, heappush_mset, List.map_cons, ← Multiset.cons_coe,
      ← Multiset.singleton_add]
    abel

theorem buildCountsHeap_length (counts : List (Nat × Nat)) :
    (buildCountsHeap counts).length = counts.length := by
  suffices hgen : ∀ (cs : List (Nat × Nat)) (h0 : List HuffmanNode),
      (cs.foldl (fun h p => heappush h (.mk p.2 none none (some p.1))) h0).length
        = h0.length + cs.length by
    simpa [buildCountsHeap] using hgen counts []
  intro cs
  induction cs with
  | nil => simp
  | cons p rest ih =>
    intro h0
    simp only [List.foldl_cons, ih, heappush_length, List.length_cons]
    omega

theorem singleton_msum (counts : List (Nat × Nat)) :
    ((counts.map (fun p => ({p.1} : Multiset Nat))).sum : Multiset Nat)
      = ↑(counts.map Prod.fst) := by
  induction counts with
  | nil => rfl
  | cons p rest ih =>
    simp only [List.map_cons, List.sum_cons, ih, ← Multiset.cons_coe,
      ← Multiset.singleton_add]

/-- The tree built by `main()`'s pipeline from the lines of the input file:
it exists whenever some byte was read, is well-formed, its frequency is the
total count, and its leaves are exactly the table's keys. -/
theorem pipeline_tree (lines : List (List Nat)) (hne : countChars lines ≠ []) :
    ∃ root, genHuffmanTreeState (getQuantitativeHeap lines) = some (root, []) ∧
      WFTree root ∧
      root.freq = ((countChars lines).map Prod.snd).sum ∧
      leafContents root = ↑((countChars lines).map Prod.fst) := by
  have hlen : (getQuantitativeHeap lines).length = (countChars lines).length := by
    unfold getQuantitativeHeap
    exact buildCountsHeap_length _
  have hne2 : getQuantitativeHeap lines ≠ [] := by
    intro hh
    rw [hh] at hlen
    simp only [List.length_nil] at hlen
    exact hne (List.length_eq_zero.mp hlen.symm)
  obtain ⟨root, hgen, hfreq, hleaf, hwf⟩ := genState_main _ hne2
  have hmset : (↑(getQuantitativeHeap lines) : Multiset HuffmanNode)
      = ↑((countChars lines).map (fun p => HuffmanNode.mk p.2 none none (some p.1))) :=
    buildCountsHeap_mset _
  refine ⟨root, hgen, ?_, ?_, ?_⟩
  · apply hwf
    intro n hn
    rw [← Multiset.mem_coe, hmset, Multiset.mem_coe, List.mem_map] at hn
    obtain ⟨p, hmem, rfl⟩ := hn
    exact WFTree.leaf p.2 p.1
  · rw [hfreq]
    unfold freqMSum
    rw [hmset]
    rw [Multiset.map_coe, Multiset.sum_coe, List.map_map]
    rfl
  · rw [hleaf]
    unfold leafMSum
    rw [hmset]
    rw [Multiset.map_coe, Multiset.sum_coe, List.map_map]
    have hcomp : (leafContents ∘ fun p : Nat × Nat => HuffmanNode.mk p.2 none none (some p.1))
        = fun p : Nat × Nat => ({p.1} : Multiset Nat) := by
      funext p
      simp [leafContents]
    rw [hcomp]
    exact singleton_msum _

theorem getHuffmanCode_true_elim (v f : Nat) (l r : Option HuffmanNode) (c : Option Nat)
    (code : List Nat) (h : getHuffmanCode v (.mk f l r c) = (true, code)) :
    (l = none ∧ r = none ∧ c = some v ∧ code = [])
    ∨ (∃ lt p, l = some lt ∧ getHuffmanCode v lt = (true, p) ∧ code = 48 :: p)
    ∨ (∃ rt p, r = some rt ∧ getHuffmanCode v rt = (true, p) ∧ code = 49 :: p) := by
  match l, r with
  | none, none =>
    simp only [getHuffmanCode, Prod.mk.injEq, decide_eq_true_eq] at h
    exact Or.inl ⟨rfl, rfl, h.1, h.2.symm⟩
  | some lt, some rt =>
    simp only [getHuffmanCode] at h
    by_cases hl : (getHuffmanCode v lt).1
    · rw [if_pos hl] at h
      simp only [Prod.mk.injEq] at h
      exact Or.inr (Or.inl ⟨lt, (getHuffmanCode v lt).2, rfl,
        by rw [← hl], h.2.symm⟩)
    · rw [if_neg hl] at h
      by_cases hr : (getHuffmanCode v rt).1
      · rw [if_pos hr] at h
        simp only [Prod.mk.injEq] at h
        exact Or.inr (Or.inr ⟨rt, (getHuffmanCode v rt).2, rfl,
          by rw [← hr], h.2.symm⟩)
      · rw [if_neg hr] at h
        simp at h
  | some lt, none =>
    simp only [getHuffmanCode] at h
    by_cases hl : (getHuffmanCode v lt).1
    · rw [if_pos hl] at h
      simp only [Prod.mk.injEq] at h
      exact Or.inr (Or.inl ⟨lt, (getHuffmanCode v lt).2, rfl,
        by rw [← hl], h.2.symm⟩)
    · rw [if_neg hl] at h
      simp at h
  | none, some rt =>
    simp only [getHuffmanCode] at h
    by_cases hr : (getHuffmanCode v rt).1
    · rw [if_pos hr] at h
      simp only [Prod.mk.injEq] at h
      exact Or.inr (Or.inr ⟨rt, (getHuffmanCode v rt).2, rfl,
        by rw [← hr], h.2.symm⟩)
    · rw [if_neg hr] at h
      simp at h

theorem getHuffmanCode_contains (t : HuffmanNode) (hwf : WFTree t) :
    ∀ v ∈ leafContents t, (getHuffmanCode v t).1 = true := by
  induction hwf with
  | leaf f c =>
    intro v hv
    simp only [leafContents_leaf, Multiset.mem_singleton] at hv
    subst hv
    simp [getHuffmanCode]
  | node f l r hl hr ihl ihr =>
    intro v hv
    simp only [leafContents_node, Multiset.mem_add] at hv
    rcases hv with hv | hv
    · simp only [getHuffmanCode, ihl v hv, if_true]
    · simp only [getHuffmanCode]
      by_cases hlv : (getHuffmanCode v l).1
      · rw [if_pos hlv]
      · rw [if_neg hlv, if_pos (ihr v hv)]

theorem isLeaf_of_left (f : Nat) (lt : HuffmanNode) (r : Option HuffmanNode) (c : Option Nat) :
    ¬ (HuffmanNode.mk f (some lt) r c).isLeaf = true := by
  simp [HuffmanNode.isLeaf]

theorem isLeaf_of_right (f : Nat) (l : Option HuffmanNode) (rt : HuffmanNode) (c : Option Nat) :
    ¬ (HuffmanNode.mk f l (some rt) c).isLeaf = true := by
  simp [HuffmanNode.isLeaf]

/-- Walking `get_next_val` along the code that `get_huffman_code` produced
for `v` consumes exactly that code and emits `v`, leaving the rest of the
single payload line in place. -/
theorem decode_code (p : List Nat) : ∀ (t : HuffmanNode) (v : Nat) (rest : List Nat),
    getHuffmanCode v t = (true, p) → getNextVal [p ++ rest] (some t) = some ([rest], some v) := by
  induction p with
  | nil =>
    intro t v rest h
    obtain ⟨f, l, r, c⟩ := t
    rcases getHuffmanCode_true_elim v f l r c [] h with
      ⟨rfl, rfl, rfl, -⟩ | ⟨lt, p, -, -, hcode⟩ | ⟨rt, p, -, -, hcode⟩
    · rw [List.nil_append]
      rw [getNextVal_leaf rest [] _ (by simp [HuffmanNode.isLeaf])]
      simp
    · exact absurd hcode.symm (List.cons_ne_nil 48 p)
    · exact absurd hcode.symm (List.cons_ne_nil 49 p)
  | cons b p' ih =>
    intro t v rest h
    obtain ⟨f, l, r, c⟩ := t
    rcases getHuffmanCode_true_elim v f l r c (b :: p') h with
      ⟨-, -, -, hcode⟩ | ⟨lt, q, hl, hrec, hcode⟩ | ⟨rt, q, hr, hrec, hcode⟩
    · exact absurd hcode (List.cons_ne_nil b p')
    · injection hcode with hb hq
      subst hb
      subst hq
      subst hl
      rw [List.cons_append]
      rw [getNextVal_zero 48 (p' ++ rest) [] _ (isLeaf_of_left f lt r c) rfl]
      simp only [List.map_cons, List.map_nil, List.drop_succ_cons, List.drop_zero,
        HuffmanNode.lchild_mk]
      exact ih lt v rest hrec
    · injection hcode with hb hq
      subst hb
      subst hq
      subst hr
      rw [List.cons_append]
      rw [getNextVal_one 49 (p' ++ rest) [] _ (isLeaf_of_right f l rt c) rfl]
      simp only [List.map_cons, List.map_nil, List.drop_succ_cons, List.drop_zero,
        HuffmanNode.rchild_mk]
      exact ih rt v rest hrec

/-- Walking `get_next_val` along a strict front part of a symbol's code runs
out of bits at an internal node: the Python function then reaches the
end-of-file case and reports a plain end of stream (`None` value), not an
error. -/
theorem decodePartial (q : List Nat) : ∀ (p : List Nat) (t : HuffmanNode) (v : Nat),
    getHuffmanCode v t = (true, p) → q <+: p → q ≠ p →
    getNextVal [q] (some t) = some ([], none) := by
  induction q with
  | nil =>
    intro p t v h hq hne
    obtain ⟨f, l, r, c⟩ := t
    rcases getHuffmanCode_true_elim v f l r c p h with
      ⟨rfl, rfl, rfl, rfl⟩ | ⟨lt, s, hl, -, rfl⟩ | ⟨rt, s, hr, -, rfl⟩
    · exact absurd rfl hne
    · subst hl
      rw [getNextVal_emptyLine [] _ (isLeaf_of_left f lt r c), getNextVal_nil]
    · subst hr
      rw [getNextVal_emptyLine [] _ (isLeaf_of_right f l rt c), getNextVal_nil]
  | cons b q' ih =>
    intro p t v h hq hne
    obtain ⟨s, hs⟩ := hq
    subst hs
    have hne2 : q' ≠ q' ++ s := by
      intro hh
      exact hne (by rw [List.cons_append, ← hh])
    obtain ⟨f, l, r, c⟩ := t
    rcases getHuffmanCode_true_elim v f l r c ((b :: q') ++ s) h with
      ⟨-, -, -, hcode⟩ | ⟨lt, q2, hl, hrec, hcode⟩ | ⟨rt, q2, hr, hrec, hcode⟩
    · exact absurd hcode (by simp)
    · rw [List.cons_append] at hcode
      injection hcode with hb hq2
      subst hb
      subst hl
      rw [getNextVal_zero 48 q' [] _ (isLeaf_of_left f lt r c) rfl]
      simp only [List.map_cons, List.map_nil, List.drop_succ_cons, List.drop_zero,
        HuffmanNode.lchild_mk]
      exact ih (q' ++ s) lt v (by rw [← hq2] at hrec; exact hrec) ⟨s, rfl⟩ hne2
    · rw [List.cons_append] at hcode
      injection hcode with hb hq2
      subst hb
      subst hr
      rw [getNextVal_one 49 q' [] _ (isLeaf_of_right f l rt c) rfl]
      simp only [List.map_cons, List.map_nil, List.drop_succ_cons, List.drop_zero,
        HuffmanNode.rchild_mk]
      exact ih (q' ++ s) rt v (by rw [← hq2] at hrec; exact hrec) ⟨s, rfl⟩ hne2

/-- Two successful code lookups in one tree where one code is a front part
of the other can only be lookups of the same value: codes end at leaves and
pass through internal nodes only. -/
theorem code_isPre_eq (pa : List Nat) : ∀ (pb : List Nat) (t : HuffmanNode) (a b : Nat),
    getHuffmanCode a t = (true, pa) → getHuffmanCode b t = (true, pb) →
    pa <+: pb → a = b := by
  induction pa with
  | nil =>
    intro pb t a b ha hb hpre
    obtain ⟨f, l, r, c⟩ := t
    rcases getHuffmanCode_true_elim a f l r c [] ha with
      ⟨rfl, rfl, rfl, -⟩ | ⟨lt, q, hl, -, hcode⟩ | ⟨rt, q, hr, -, hcode⟩
    · rcases getHuffmanCode_true_elim b f none none (some a) pb hb with
        ⟨-, -, hc, -⟩ | ⟨lt, q, hl, -, -⟩ | ⟨rt, q, hr, -, -⟩
      · exact Option.some.inj hc
      · cases hl
      · cases hr
    · exact absurd hcode.symm (List.cons_ne_nil 48 q)
    · exact absurd hcode.symm (List.cons_ne_nil 49 q)
  | cons x pa' ih =>
    intro pb t a b ha hb hpre
    obtain ⟨s, hs⟩ := hpre
    subst hs
    obtain ⟨f, l, r, c⟩ := t
    rcases getHuffmanCode_true_elim a f l r c (x :: pa') ha with
      ⟨-, -, -, hcode⟩ | ⟨lt, q, hl, hreca, hcode⟩ | ⟨rt, q, hr, hreca, hcode⟩
    · exact absurd hcode (List.cons_ne_nil x pa')
    · injection hcode with hx hq
      subst hx
      subst hq
      rcases getHuffmanCode_true_elim b f l r c ((48 :: pa') ++ s) hb with
        ⟨-, -, -, hcode2⟩ | ⟨lt2, q2, hl2, hrecb, hcode2⟩ | ⟨rt2, q2, hr2, hrecb, hcode2⟩
      · exact absurd hcode2 (by simp)
      · rw [List.cons_append] at hcode2
        injection hcode2 with hx2 hq2
        rw [hl] at hl2
        injection hl2 with hlt
        subst hlt
        subst hq2
        exact ih (pa' ++ s) lt a b hreca hrecb ⟨s, rfl⟩
      · rw [List.cons_append] at hcode2
        injection hcode2 with hx2 hq2
        cases hx2
    · injection hcode with hx hq
      subst hx
      subst hq
      rcases getHuffmanCode_true_elim b f l r c ((49 :: pa') ++ s) hb with
        ⟨-, -, -, hcode2⟩ | ⟨lt2, q2, hl2, hrecb, hcode2⟩ | ⟨rt2, q2, hr2, hrecb, hcode2⟩
      · exact absurd hcode2 (by simp)
      · rw [List.cons_append] at hcode2
        injection hcode2 with hx2 hq2
        cases hx2
      · rw [List.cons_append] at hcode2
        injection hcode2 with hx2 hq2
        rw [hr] at hr2
        injection hr2 with hrt
        subst hrt
        subst hq2
        exact ih (pa' ++ s) rt a b hreca hrecb ⟨s, rfl⟩

/-- The concatenation of the codes of a byte sequence: what the
`compress_file` accumulator ends as. -/
def codesConcat (chars : List Nat) (t : HuffmanNode) : List Nat :=
  (chars.map (fun c => (getHuffmanCode c t).2)).flatten

@[simp] theorem codesConcat_nil (t : HuffmanNode) : codesConcat [] t = [] := rfl

theorem codesConcat_cons (c : Nat) (cs : List Nat) (t : HuffmanNode) :
    codesConcat (c :: cs) t = (getHuffmanCode c t).2 ++ codesConcat cs t := by
  simp [codesConcat]

theorem codesConcat_append (cs ds : List Nat) (t : HuffmanNode) :
    codesConcat (cs ++ ds) t = codesConcat cs t ++ codesConcat ds t := by
  simp [codesConcat]

theorem foldChars_some (t : HuffmanNode) (line : List Nat)
    (hall : ∀ c ∈ line, (getHuffmanCode c t).1 = true) : ∀ acc : List Nat,
    line.foldlM (fun acc2 ch =>
        if (getHuffmanCode ch t).1 then some (acc2 ++ (getHuffmanCode ch t).2) else none) acc
      = some (acc ++ codesConcat line t) := by
  induction line with
  | nil => intro acc; simp
  | cons c cs ih =>
    intro acc
    rw [List.foldlM_cons, if_pos (hall c (by simp))]
    rw [Option.bind_eq_bind, Option.some_bind]
    rw [ih (fun d hd => hall d (by simp [hd]))]
    rw [codesConcat_cons, List.append_assoc]

theorem foldChars_inv (t : HuffmanNode) (line : List Nat) : ∀ (acc out : List Nat),
    line.foldlM (fun acc2 ch =>
        if (getHuffmanCode ch t).1 then some (acc2 ++ (getHuffmanCode ch t).2) else none) acc
      = some out →
    out = acc ++ codesConcat line t ∧ ∀ c ∈ line, (getHuffmanCode c t).1 = true := by
  induction line with
  | nil =>
    intro acc out h
    simp only [List.foldlM_nil, Option.pure_def, Option.some.injEq] at h
    simp [← h]
  | cons c cs ih =>
    intro acc out h
    rw [List.foldlM_cons] at h
    by_cases hc : (getHuffmanCode c t).1
    · rw [if_pos hc, Option.bind_eq_bind, Option.some_bind] at h
      obtain ⟨hout, hrest⟩ := ih _ _ h
      refine ⟨by rw [hout, codesConcat_cons, List.append_assoc], ?_⟩
      intro d hd
      rcases List.mem_cons.mp hd with rfl | hd2
      · exact hc
      · exact hrest d hd2
    · rw [if_neg hc] at h
      simp at h

theorem compressFile_some (file : List (List Nat)) (t : HuffmanNode)
    (hall : ∀ c ∈ file.flatten, (getHuffmanCode c t).1 = true) :
    compressFile file t = some (codesConcat file.flatten t) := by
  suffices hgen : ∀ (fl : List (List Nat)), (∀ c ∈ fl.flatten, (getHuffmanCode c t).1 = true) →
      ∀ acc : List Nat,
      fl.foldlM (fun acc line => line.foldlM (fun acc2 ch =>
          if (getHuffmanCode ch t).1 then some (acc2 ++ (getHuffmanCode ch t).2) else none)
        acc) acc
        = some (acc ++ codesConcat fl.flatten t) by
    simpa [compressFile] using hgen file hall []
  intro fl
  induction fl with
  | nil => intro h acc; simp
  | cons line rest ih =>
    intro h acc
    rw [List.foldlM_cons, foldChars_some t line
      (fun c hc => h c (by simp [List.flatten_cons, hc]))]
    rw [Option.bind_eq_bind, Option.some_bind]
    rw [ih (fun c hc => h c (by simp [List.flatten_cons, hc]))]
    rw [List.flatten_cons, codesConcat_append, List.append_assoc]

theorem compressFile_inv (file : List (List Nat)) (t : HuffmanNode) (out : List Nat)
    (h : compressFile file t = some out) :
    out = codesConcat file.flatten t ∧ ∀ c ∈ file.flatten, (getHuffmanCode c t).1 = true := by
  suffices hgen : ∀ (fl : List (List Nat)) (acc out2 : List Nat),
      fl.foldlM (fun acc line => line.foldlM (fun acc2 ch =>
          if (getHuffmanCode ch t).1 then some (acc2 ++ (getHuffmanCode ch t).2) else none)
        acc) acc = some out2 →
      out2 = acc ++ codesConcat fl.flatten t ∧ ∀ c ∈ fl.flatten, (getHuffmanCode c t).1 = true by
    simpa using hgen file [] out h
  intro fl
  induction fl with
  | nil =>
    intro acc out2 h2
    simp only [List.foldlM_nil, Option.pure_def, Option.some.injEq] at h2
    simp [← h2]
  | cons line rest ih =>
    intro acc out2 h2
    rw [List.foldlM_cons] at h2
    match hline : line.foldlM (fun acc2 ch =>
        if (getHuffmanCode ch t).1 then some (acc2 ++ (getHuffmanCode ch t).2) else none) acc with
    | none => rw [hline] at h2; simp at h2
    | some mid =>
      rw [hline, Option.bind_eq_bind, Option.some_bind] at h2
      obtain ⟨hmid, hlineall⟩ := foldChars_inv t line acc mid hline
      obtain ⟨hout, hrestall⟩ := ih mid out2 h2
      constructor
      · rw [hout, hmid, List.flatten_cons, codesConcat_append, List.append_assoc]
      · intro c hc
        rw [List.flatten_cons, List.mem_append] at hc
        rcases hc with hc | hc
        · exact hlineall c hc
        · exact hrestall c hc

/-- The decompression loop of `main()` inverts the compression of a byte
sequence whose codes all exist, for a tree with at least one internal node:
it consumes each code in turn and stops cleanly at the end of the single
payload line. -/
theorem decodeAll (t : HuffmanNode) (hleaf : ¬ t.isLeaf = true) (cs : List Nat) :
    ∀ fuel : Nat, (∀ c ∈ cs, (getHuffmanCode c t).1 = true) → cs.length < fuel →
    decodeLoop fuel [codesConcat cs t] t = some cs := by
  induction cs with
  | nil =>
    intro fuel hall hfuel
    match fuel, hfuel with
    | f + 1, _ =>
      show decodeLoop (f + 1) [[]] t = some []
      obtain ⟨ff, l, r, c⟩ := t
      rw [decodeLoop, getNextVal_emptyLine [] _ hleaf, getNextVal_nil]
  | cons c cs ih =>
    intro fuel hall hfuel
    match fuel, hfuel with
    | f + 1, hf =>
      have hc : getHuffmanCode c t = (true, (getHuffmanCode c t).2) := by
        rw [← hall c (by simp)]
      rw [codesConcat_cons]
      rw [decodeLoop, decode_code _ t c _ hc]
      show Option.map (fun s => c :: s) (decodeLoop f [codesConcat cs t] t) = some (c :: cs)
      rw [ih f (fun d hd => hall d (by simp [hd])) (by simpa using hf)]
      rfl

/-- Cutting a strict front part of one more code off the payload makes the
decompression loop emit the decoded sequence so far and stop with a plain
end of stream: no error is reported. -/
theorem decodeAllTrunc (t : HuffmanNode) (hleaf : ¬ t.isLeaf = true) (cs : List Nat) :
    ∀ (q : List Nat) (fuel : Nat), (∀ c ∈ cs, (getHuffmanCode c t).1 = true) →
    (∃ v p, getHuffmanCode v t = (true, p) ∧ q <+: p ∧ q ≠ p) → cs.length < fuel →
    decodeLoop fuel [codesConcat cs t ++ q] t = some cs := by
  induction cs with
  | nil =>
    intro q fuel hall hq hfuel
    obtain ⟨v, p, hvp, hpre, hne⟩ := hq
    match fuel, hfuel with
    | f + 1, _ =>
      rw [codesConcat_nil, List.nil_append]
      rw [decodeLoop, decodePartial q p t v hvp hpre hne]
  | cons c cs ih =>
    intro q fuel hall hq hfuel
    match fuel, hfuel with
    | f + 1, hf =>
      have hc : getHuffmanCode c t = (true, (getHuffmanCode c t).2) := by
        rw [← hall c (by simp)]
      rw [codesConcat_cons, List.append_assoc]
      rw [decodeLoop, decode_code _ t c _ hc]
      show Option.map (fun s => c :: s) (decodeLoop f [codesConcat cs t ++ q] t)
        = some (c :: cs)
      rw [ih q f (fun d hd => hall d (by simp [hd])) hq (by simpa using hf)]
      rfl

theorem counts_ne_nil_of_mem (lines : List (List Nat)) (c : Nat) (hc : c ∈ lines.flatten) :
    countChars lines ≠ [] := by
  intro hh
  have hk := (keys_countList c lines.flatten).mpr hc
  rw [← countChars_eq_countList, hh] at hk
  simp at hk

theorem counts_le_flatten (lines : List (List Nat)) :
    (countChars lines).length ≤ lines.flatten.length := by
  rw [countChars_eq_countList]
  exact length_countList _

theorem pipeline_all_contained (lines : List (List Nat)) (root : HuffmanNode)
    (hwf : WFTree root) (hleafc : leafContents root = ↑((countChars lines).map Prod.fst)) :
    ∀ c ∈ lines.flatten, (getHuffmanCode c root).1 = true := by
  intro c hc
  apply getHuffmanCode_contains root hwf
  rw [hleafc, Multiset.mem_coe]
  rw [countChars_eq_countList]
  exact (keys_countList c lines.flatten).mpr hc

theorem root_not_leaf (lines : List (List Nat)) (root : HuffmanNode)
    (h2 : 2 ≤ (countChars lines).length) (hwf : WFTree root)
    (hleafc : leafContents root = ↑((countChars lines).map Prod.fst)) :
    ¬ root.isLeaf = true := by
  intro hlf
  cases hwf with
  | leaf f c =>
    have hcard := congrArg Multiset.card hleafc
    simp only [leafContents_leaf, Multiset.card_singleton, Multiset.coe_card,
      List.length_map] at hcard
    omega
  | node f l r hl hr => exact isLeaf_of_left f l (some r) none hlf

theorem code_ne_nil (t : HuffmanNode) (hleaf : ¬ t.isLeaf = true) (c : Nat)
    (h : (getHuffmanCode c t).1 = true) : (getHuffmanCode c t).2 ≠ [] := by
  intro hnil
  obtain ⟨f, l, r, cc⟩ := t
  have h2 : getHuffmanCode c (.mk f l r cc) = (true, []) := by
    rw [← h, ← hnil]
  rcases getHuffmanCode_true_elim c f l r cc [] h2 with
    ⟨rfl, rfl, -, -⟩ | ⟨lt, q, -, -, hcode⟩ | ⟨rt, q, -, -, hcode⟩
  · exact hleaf (by simp [HuffmanNode.isLeaf])
  · exact List.cons_ne_nil 48 q hcode.symm
  · exact List.cons_ne_nil 49 q hcode.symm

theorem codesConcat_ne_nil (t : HuffmanNode) (hleaf : ¬ t.isLeaf = true) (c : Nat)
    (cs : List Nat) (h : (getHuffmanCode c t).1 = true) : codesConcat (c :: cs) t ≠ [] := by
  rw [codesConcat_cons]
  intro hh
  exact code_ne_nil t hleaf c h (List.append_eq_nil.mp hh).1

theorem decodeLoop_nil (f : Nat) (t : HuffmanNode) : decodeLoop (f + 1) [] t = some [] := by
  rw [decodeLoop, getNextVal_nil]

theorem codesConcat_all_nil (t : HuffmanNode) (cs : List Nat)
    (hall : ∀ c ∈ cs, (getHuffmanCode c t).2 = []) : codesConcat cs t = [] := by
  induction cs with
  | nil => rfl
  | cons c rest ih =>
    rw [codesConcat_cons, hall c (by simp), List.nil_append]
    exact ih (fun d hd => hall d (by simp [hd]))

/-- The whole pipeline on an input all of whose bytes equal `c`: a one-entry
table, a one-leaf heap, no merge, the empty code for `c`, and an empty
compressed payload. -/
theorem singleSymbol_pipeline (lines : List (List Nat)) (c : Nat)
    (hne : lines.flatten ≠ []) (hall : ∀ x ∈ lines.flatten, x = c) :
    countChars lines = [(c, lines.flatten.length)] ∧
    genHuffmanTreeState (getQuantitativeHeap lines)
      = some (.mk lines.flatten.length none none (some c), []) ∧
    getHuffmanCode c (.mk lines.flatten.length none none (some c)) = (true, []) ∧
    compressFile lines (.mk lines.flatten.length none none (some c)) = some [] := by
  have hcounts : countChars lines = [(c, lines.flatten.length)] := by
    rw [countChars_eq_countList]
    exact countList_const c lines.flatten hall hne
  have hheap : getQuantitativeHeap lines = [.mk lines.flatten.length none none (some c)] := by
    unfold getQuantitativeHeap
    rw [hcounts]
    show (buildCountsHeap [(c, lines.flatten.length)]) = _
    unfold buildCountsHeap
    rw [List.foldl_cons, List.foldl_nil, heappush_nil]
  have hcode : getHuffmanCode c (.mk lines.flatten.length none none (some c)) = (true, []) := by
    simp [getHuffmanCode]
  refine ⟨hcounts, by rw [hheap, genState_one], hcode, ?_⟩
  have hcont : ∀ x ∈ lines.flatten,
      (getHuffmanCode x (.mk lines.flatten.length none none (some c))).1 = true := by
    intro x hx
    rw [hall x hx, hcode]
  rw [compressFile_some lines _ hcont]
  rw [codesConcat_all_nil _ _ (fun x hx => by rw [hall x hx, hcode])]

/-- C10: `gen_huffman_tree` consumes its input: for every non-empty heap
passed in, after the call returns the root the caller's heap list has been
mutated to be empty (every node was popped), so the frequency heap cannot be
reused after tree construction. -/
theorem C10_heap_emptied (heap : List HuffmanNode) (hne : heap ≠ []) :
    ∃ root, genHuffmanTreeState heap = some (root, []) := by
  obtain ⟨root, hgen, -, -, -⟩ := genState_main heap hne
  exact ⟨root, hgen⟩

/-- Witness for C10 at a concrete one-leaf heap. -/
theorem C10_heap_emptied_witness :
    ([HuffmanNode.mk 1 none none (some 97)] : List HuffmanNode) ≠ [] ∧
    ∃ root, genHuffmanTreeState [HuffmanNode.mk 1 none none (some 97)] = some (root, []) :=
  ⟨by simp, C10_heap_emptied [HuffmanNode.mk 1 none none (some 97)] (by simp)⟩

/-- C6: for every non-empty frequency table the tree builder terminates and
returns a single root node whose frequency equals the sum of all input
frequencies. -/
theorem C6_root_freq_sum (lines : List (List Nat)) (hne : lines.flatten ≠ []) :
    ∃ root, genHuffmanTreeState (getQuantitativeHeap lines) = some (root, []) ∧
      root.freq = ((countChars lines).map Prod.snd).sum := by
  obtain ⟨c, hc⟩ : ∃ c, c ∈ lines.flatten := by
    match lines.flatten, hne with
    | x :: xs, _ => exact ⟨x, by simp⟩
  obtain ⟨root, hgen, -, hfreq, -⟩ := pipeline_tree lines (counts_ne_nil_of_mem lines c hc)
  exact ⟨root, hgen, hfreq⟩

/-- Witness for C6 at the two-byte input `"ab"`. -/
theorem C6_root_freq_sum_witness :
    ([[97, 98]] : List (List Nat)).flatten ≠ [] ∧
    ∃ root, genHuffmanTreeState (getQuantitativeHeap [[97, 98]]) = some (root, []) ∧
      root.freq = ((countChars [[97, 98]]).map Prod.snd).sum :=
  ⟨by decide, C6_root_freq_sum [[97, 98]] (by decide)⟩

/-- C5: for every tree built from a non-empty frequency table and every pair
of distinct symbols occurring in the input, both symbols' codes exist and
the code produced for `a` is not a front part (prefix) of the code produced
for `b`. -/
theorem C5_prefix_free (lines : List (List Nat)) (a b : Nat) (ha : a ∈ lines.flatten)
    (hb : b ∈ lines.flatten) (hab : a ≠ b) :
    ∃ root, genHuffmanTreeState (getQuantitativeHeap lines) = some (root, []) ∧
      (getHuffmanCode a root).1 = true ∧ (getHuffmanCode b root).1 = true ∧
      ¬ (getHuffmanCode a root).2 <+: (getHuffmanCode b root).2 := by
  obtain ⟨root, hgen, hwf, -, hleafc⟩ := pipeline_tree lines (counts_ne_nil_of_mem lines a ha)
  have hall := pipeline_all_contained lines root hwf hleafc
  refine ⟨root, hgen, hall a ha, hall b hb, ?_⟩
  intro hpre
  exact hab (code_isPre_eq (getHuffmanCode a root).2 (getHuffmanCode b root).2 root a b
    (by rw [← hall a ha]) (by rw [← hall b hb]) hpre)

/-- Witness for C5 at the input `"ab"` with the pair 97, 98. -/
theorem C5_prefix_free_witness :
    (97 ∈ ([[97, 98]] : List (List Nat)).flatten) ∧ (98 ∈ ([[97, 98]] : List (List Nat)).flatten)
      ∧ (97 : Nat) ≠ 98 ∧
    ∃ root, genHuffmanTreeState (getQuantitativeHeap [[97, 98]]) = some (root, []) ∧
      (getHuffmanCode 97 root).1 = true ∧ (getHuffmanCode 98 root).1 = true ∧
      ¬ (getHuffmanCode 97 root).2 <+: (getHuffmanCode 98 root).2 :=
  ⟨by decide, by decide, by decide, C5_prefix_free [[97, 98]] 97 98 (by decide) (by decide)
    (by decide)⟩

/-- C7: whenever the pipeline produces a payload, its total bit count (one
payload byte per bit in this program) equals the sum over the frequency
table of `count * length of the symbol's code`. -/
theorem C7_bit_count (lines : List (List Nat)) (hne : lines.flatten ≠ []) :
    ∃ root out, genHuffmanTreeState (getQuantitativeHeap lines) = some (root, []) ∧
      compressFile lines root = some out ∧
      out.length = sumPairs (countChars lines) (fun s => ((getHuffmanCode s root).2).length) := by
  obtain ⟨c, hc⟩ : ∃ c, c ∈ lines.flatten := by
    match lines.flatten, hne with
    | x :: xs, _ => exact ⟨x, by simp⟩
  obtain ⟨root, hgen, hwf, -, hleafc⟩ := pipeline_tree lines (counts_ne_nil_of_mem lines c hc)
  have hall := pipeline_all_contained lines root hwf hleafc
  refine ⟨root, codesConcat lines.flatten root, hgen, compressFile_some lines root hall, ?_⟩
  unfold codesConcat
  rw [List.length_flatten, List.map_map, countChars_eq_countList, sumPairs_countList]
  rfl

/-- Witness for C7 at the input `"ab"`. -/
theorem C7_bit_count_witness :
    ([[97, 98]] : List (List Nat)).flatten ≠ [] ∧
    ∃ root out, genHuffmanTreeState (getQuantitativeHeap [[97, 98]]) = some (root, []) ∧
      compressFile [[97, 98]] root = some out ∧
      out.length = sumPairs (countChars [[97, 98]])
        (fun s => ((getHuffmanCode s root).2).length) :=
  ⟨by decide, C7_bit_count [[97, 98]] (by decide)⟩

/-- C8 (amended): a zero-byte input yields an empty frequency table and an
empty heap, but the pipeline does not short-circuit: `gen_huffman_tree` then
pops the empty heap, raising `IndexError` (modelled as `none`), so encoding
fails fatally instead of producing an empty header/payload pair. -/
theorem C8_empty_input_raises :
    countChars ([] : List (List Nat)) = [] ∧ getQuantitativeHeap [] = [] ∧
    genHuffmanTreeState (getQuantitativeHeap []) = none := by
  refine ⟨rfl, rfl, ?_⟩
  rw [show getQuantitativeHeap [] = [] from rfl, genState_small [] (by simp), heappop_nil]

/-- Counterexample for C8 as stated: on the empty input the tree builder
raises (returns `none`, the model of `IndexError` from popping an empty
heap) — encoding does not produce an empty header/payload pair. -/
theorem C8_counterexample : genHuffmanTree (getQuantitativeHeap []) = none := by
  rw [genHuffmanTree, show getQuantitativeHeap [] = [] from rfl, genState_small [] (by simp),
    heappop_nil]
  rfl

/-- C3 (amended): the tree builder is a deterministic function of the
insertion-ordered frequency table — two runs over the same ordered table
assign every symbol the same code. -/
theorem C3_deterministic (counts1 counts2 : List (Nat × Nat)) (h : counts1 = counts2)
    (v : Nat) :
    (genHuffmanTree (buildCountsHeap counts1)).map (fun t => getHuffmanCode v t)
      = (genHuffmanTree (buildCountsHeap counts2)).map (fun t => getHuffmanCode v t) := by
  rw [h]

/-- Witness for C3 at a concrete ordered table. -/
theorem C3_deterministic_witness :
    ([(97, 1), (98, 1)] : List (Nat × Nat)) = [(97, 1), (98, 1)] ∧
    (genHuffmanTree (buildCountsHeap [(97, 1), (98, 1)])).map (fun t => getHuffmanCode 97 t)
      = (genHuffmanTree (buildCountsHeap [(97, 1), (98, 1)])).map
          (fun t => getHuffmanCode 97 t) :=
  ⟨rfl, C3_deterministic [(97, 1), (98, 1)] [(97, 1), (98, 1)] rfl 97⟩

/-- C4 (amended): for every input with exactly one distinct symbol no merge
occurs and the tree is a single leaf, but the code assigned to the symbol is
the empty bit string, not a single bit, so each occurrence encodes to zero
bits. -/
theorem C4_single_leaf_empty_code (lines : List (List Nat)) (c : Nat)
    (hne : lines.flatten ≠ []) (hall : ∀ x ∈ lines.flatten, x = c) :
    genHuffmanTreeState (getQuantitativeHeap lines)
      = some (.mk lines.flatten.length none none (some c), []) ∧
    getHuffmanCode c (.mk lines.flatten.length none none (some c)) = (true, []) := by
  obtain ⟨-, hgen, hcode, -⟩ := singleSymbol_pipeline lines c hne hall
  exact ⟨hgen, hcode⟩

/-- Witness for C4 at the input `"aa"`. -/
theorem C4_single_leaf_empty_code_witness :
    ([[97, 97]] : List (List Nat)).flatten ≠ [] ∧ (∀ x ∈ ([[97, 97]] : List (List Nat)).flatten,
      x = 97) ∧
    genHuffmanTreeState (getQuantitativeHeap [[97, 97]])
      = some (.mk 2 none none (some 97), []) ∧
    getHuffmanCode 97 (.mk 2 none none (some 97)) = (true, []) :=
  ⟨by decide, by decide,
    (C4_single_leaf_empty_code [[97, 97]] 97 (by decide) (by decide)).1,
    (C4_single_leaf_empty_code [[97, 97]] 97 (by decide) (by decide)).2⟩

/-- Counterexample for C4 as stated: on the input `"aa"` the tree is the
single leaf for byte 97 and the code assigned to 97 is the empty bit string
(length 0), not a non-empty single bit. -/
theorem C4_counterexample :
    genHuffmanTreeState (getQuantitativeHeap [[97, 97]])
      = some (.mk 2 none none (some 97), []) ∧
    (getHuffmanCode 97 (.mk 2 none none (some 97))).2 = [] ∧
    ¬ (getHuffmanCode 97 (.mk 2 none none (some 97))).2.length = 1 := by
  obtain ⟨-, hgen, hcode, -⟩ := singleSymbol_pipeline [[97, 97]] 97 (by decide) (by decide)
  have hc2 : getHuffmanCode 97 (.mk 2 none none (some 97)) = (true, []) := hcode
  exact ⟨hgen, by rw [hc2], by rw [hc2]; simp⟩

/-- C1 (amended): for every input with at least two distinct byte values,
compressing with the tree built from the input's own frequency counts and
repeatedly decoding the resulting stream with that tree yields exactly the
input bytes.  (As stated over all inputs the claim fails: a repeated
single byte round-trips to the empty sequence — see the counterexample —
and the empty input makes the tree builder raise.) -/
theorem C1_round_trip (lines : List (List Nat)) (h2 : 2 ≤ (countChars lines).length) :
    encodeDecode lines = some lines.flatten := by
  have hcne : countChars lines ≠ [] := by
    intro hh
    rw [hh] at h2
    simp at h2
  obtain ⟨root, hgen, hwf, -, hleafc⟩ := pipeline_tree lines hcne
  have hall := pipeline_all_contained lines root hwf hleafc
  have hnl := root_not_leaf lines root h2 hwf hleafc
  have hflen : 2 ≤ lines.flatten.length := le_trans h2 (counts_le_flatten lines)
  have hflat : lines.flatten ≠ [] := by
    intro hh
    rw [hh] at hflen
    simp at hflen
  obtain ⟨c0, cs0, hfl⟩ : ∃ c0 cs0, lines.flatten = c0 :: cs0 := by
    match lines.flatten, hflat with
    | c0 :: cs0, _ => exact ⟨c0, cs0, rfl⟩
  have hpay : codesConcat lines.flatten root ≠ [] := by
    rw [hfl]
    exact codesConcat_ne_nil root hnl c0 cs0 (hall c0 (by rw [hfl]; simp))
  unfold encodeDecode
  rw [hgen]
  show (match compressFile lines root with
    | none => none
    | some payload => decodeLoop (lines.flatten.length + 1) (payloadLines payload) root)
      = some lines.flatten
  rw [compressFile_some lines root hall]
  show decodeLoop (lines.flatten.length + 1)
      (payloadLines (codesConcat lines.flatten root)) root = some lines.flatten
  have hpl : payloadLines (codesConcat lines.flatten root)
      = [codesConcat lines.flatten root] := by
    unfold payloadLines
    rw [if_neg (by simpa using hpay)]
  rw [hpl]
  exact decodeAll root hnl lines.flatten (lines.flatten.length + 1) hall (by omega)

/-- Witness for C1 at the input `"ab"`. -/
theorem C1_round_trip_witness :
    2 ≤ (countChars [[97, 98]]).length ∧ encodeDecode [[97, 98]] = some [97, 98] :=
  ⟨by decide, C1_round_trip [[97, 98]] (by decide)⟩

/-- Counterexample for C1 as stated: for the sequence of one byte value
repeated (`"aa"`), the pipeline compresses to an empty payload (every code
is empty) and decoding yields the empty sequence, not the input. -/
theorem C1_counterexample :
    encodeDecode [[97, 97]] = some [] ∧ encodeDecode [[97, 97]] ≠ some [97, 97] := by
  obtain ⟨-, hgen, -, hcomp⟩ := singleSymbol_pipeline [[97, 97]] 97 (by decide) (by decide)
  have hmain : encodeDecode [[97, 97]] = some [] := by
    unfold encodeDecode
    rw [hgen]
    show (match compressFile [[97, 97]] (.mk 2 none none (some 97)) with
      | none => none
      | some payload =>
        decodeLoop (([[97, 97]] : List (List Nat)).flatten.length + 1) (payloadLines payload)
          (.mk 2 none none (some 97))) = some []
    rw [show compressFile [[97, 97]] (.mk 2 none none (some 97)) = some [] from hcomp]
    show decodeLoop 3 (payloadLines []) (.mk 2 none none (some 97)) = some []
    rw [show payloadLines [] = [] from rfl]
    exact decodeLoop_nil 2 _
  exact ⟨hmain, by rw [hmain]; simp⟩

/-- C2: the claim is false of the code — the encoder's entire output for the
input `"ab"` is the two payload code bytes `b'01'`; no magic marker, symbol
count, pair list or bit count precedes them (the tree serialization is left
as `TODO` comments in `main()`), so a decoder without the in-memory tree has
nothing to rebuild it from. -/
theorem C2_no_header :
    genHuffmanTreeState (getQuantitativeHeap [[97, 98]])
      = some (.mk 2 (some (.mk 1 none none (some 97))) (some (.mk 1 none none (some 98)))
          none, []) ∧
    compressFile [[97, 98]]
        (.mk 2 (some (.mk 1 none none (some 97))) (some (.mk 1 none none (some 98))) none)
      = some [48, 49] := by
  constructor
  · show genHuffmanTreeState (buildCountsHeap (countChars [[97, 98]])) = _
    rw [show countChars [[97, 98]] = [(97, 1), (98, 1)] from rfl]
    unfold buildCountsHeap
    rw [List.foldl_cons, List.foldl_cons, List.foldl_nil, heappush_nil, heappush_one,
      if_neg (by simp)]
    exact genState_pair _ _
  · rfl

/-- Counterexample for C3 as stated: two frequency tables equal as mappings
(a permutation of one another, with the same count for every key) but with
different insertion orders build different trees — symbol 97 gets code `0`
from one and code `1` from the other, so the extraction order at equal
frequencies is not reproducible from the table as an unordered mapping. -/
theorem C3_counterexample :
    List.Perm [(97, 1), (98, 1)] [(98, 1), (97, 1)] ∧
    (∀ k : Nat, lookupCount k [(97, 1), (98, 1)] = lookupCount k [(98, 1), (97, 1)]) ∧
    (genHuffmanTree (buildCountsHeap [(97, 1), (98, 1)])).map (fun t => getHuffmanCode 97 t)
      = some (true, [48]) ∧
    (genHuffmanTree (buildCountsHeap [(98, 1), (97, 1)])).map (fun t => getHuffmanCode 97 t)
      = some (true, [49]) := by
  refine ⟨List.Perm.swap (98, 1) (97, 1) [], ?_, ?_, ?_⟩
  · intro k
    simp only [lookupCount]
    by_cases h97 : 97 = k <;> by_cases h98 : 98 = k <;> simp [h97, h98]
  · have h1 : genHuffmanTreeState (buildCountsHeap [(97, 1), (98, 1)])
        = some (.mk 2 (some (.mk 1 none none (some 97))) (some (.mk 1 none none (some 98)))
            none, []) := by
      unfold buildCountsHeap
      rw [List.foldl_cons, List.foldl_cons, List.foldl_nil, heappush_nil, heappush_one,
        if_neg (by simp)]
      exact genState_pair _ _
    rw [genHuffmanTree, h1]
    rfl
  · have h2 : genHuffmanTreeState (buildCountsHeap [(98, 1), (97, 1)])
        = some (.mk 2 (some (.mk 1 none none (some 98))) (some (.mk 1 none none (some 97)))
            none, []) := by
      unfold buildCountsHeap
      rw [List.foldl_cons, List.foldl_cons, List.foldl_nil, heappush_nil, heappush_one,
        if_neg (by simp)]
      exact genState_pair _ _
    rw [genHuffmanTree, h2]
    rfl

/-- C9 (amended): truncating a valid payload by one byte (one recorded bit)
does not make decode report an error: the decompression loop silently
returns the input with its final symbol dropped, because `get_next_val`
treats running out of bits mid-traversal as a plain end of stream. -/
theorem C9_truncation_drops_last (lines : List (List Nat))
    (h2 : 2 ≤ (countChars lines).length) :
    ∃ root out, genHuffmanTreeState (getQuantitativeHeap lines) = some (root, []) ∧
      compressFile lines root = some out ∧
      decodeLoop (lines.flatten.length + 1) (payloadLines out.dropLast) root
        = some lines.flatten.dropLast := by
  have hcne : countChars lines ≠ [] := by
    intro hh
    rw [hh] at h2
    simp at h2
  obtain ⟨root, hgen, hwf, -, hleafc⟩ := pipeline_tree lines hcne
  have hall := pipeline_all_contained lines root hwf hleafc
  have hnl := root_not_leaf lines root h2 hwf hleafc
  have hflen : 2 ≤ lines.flatten.length := le_trans h2 (counts_le_flatten lines)
  have hflat : lines.flatten ≠ [] := by
    intro hh
    rw [hh] at hflen
    simp at hflen
  refine ⟨root, codesConcat lines.flatten root, hgen, compressFile_some lines root hall, ?_⟩
  have hdecomp : lines.flatten.dropLast ++ [lines.flatten.getLast hflat] = lines.flatten :=
    List.dropLast_append_getLast hflat
  have hlastmem : lines.flatten.getLast hflat ∈ lines.flatten := List.getLast_mem hflat
  have hcodelast : (getHuffmanCode (lines.flatten.getLast hflat) root).1 = true :=
    hall _ hlastmem
  have hlastne : (getHuffmanCode (lines.flatten.getLast hflat) root).2 ≠ [] :=
    code_ne_nil root hnl _ hcodelast
  have hcc : codesConcat lines.flatten root
      = codesConcat lines.flatten.dropLast root
        ++ (getHuffmanCode (lines.flatten.getLast hflat) root).2 := by
    conv_lhs => rw [← hdecomp]
    rw [codesConcat_append, codesConcat_cons, codesConcat_nil, List.append_nil]
  have hdrop : (codesConcat lines.flatten root).dropLast
      = codesConcat lines.flatten.dropLast root
        ++ (getHuffmanCode (lines.flatten.getLast hflat) root).2.dropLast := by
    rw [hcc, List.dropLast_append_of_ne_nil _ hlastne]
  have hinitlen : lines.flatten.dropLast.length = lines.flatten.length - 1 :=
    List.length_dropLast _
  have hinitne : lines.flatten.dropLast ≠ [] := by
    intro hh
    have hlen0 : lines.flatten.dropLast.length = 0 := by rw [hh]; rfl
    rw [hinitlen] at hlen0
    omega
  obtain ⟨c0, cs0, hinitcons⟩ : ∃ c0 cs0, lines.flatten.dropLast = c0 :: cs0 := by
    match lines.flatten.dropLast, hinitne with
    | c0 :: cs0, _ => exact ⟨c0, cs0, rfl⟩
  have hinitsub : ∀ x ∈ lines.flatten.dropLast, x ∈ lines.flatten := by
    intro x hx
    rw [← hdecomp]
    exact List.mem_append.mpr (Or.inl hx)
  have hpayne : codesConcat lines.flatten.dropLast root ≠ [] := by
    rw [hinitcons]
    exact codesConcat_ne_nil root hnl c0 cs0
      (hall c0 (hinitsub c0 (by rw [hinitcons]; simp)))
  have hpaydropne : (codesConcat lines.flatten root).dropLast ≠ [] := by
    rw [hdrop]
    intro hh
    exact hpayne (List.append_eq_nil.mp hh).1
  have hpl : payloadLines ((codesConcat lines.flatten root).dropLast)
      = [(codesConcat lines.flatten root).dropLast] := by
    unfold payloadLines
    rw [if_neg (by simpa using hpaydropne)]
  rw [hpl, hdrop]
  have hqne : (getHuffmanCode (lines.flatten.getLast hflat) root).2.dropLast
      ≠ (getHuffmanCode (lines.flatten.getLast hflat) root).2 := by
    intro hh
    have := congrArg List.length hh
    rw [List.length_dropLast] at this
    have hl1 : 1 ≤ (getHuffmanCode (lines.flatten.getLast hflat) root).2.length := by
      match (getHuffmanCode (lines.flatten.getLast hflat) root).2, hlastne with
      | x :: xs, _ => simp
    omega
  exact decodeAllTrunc root hnl lines.flatten.dropLast
    ((getHuffmanCode (lines.flatten.getLast hflat) root).2.dropLast)
    (lines.flatten.length + 1)
    (fun d hd => hall d (hinitsub d hd))
    ⟨lines.flatten.getLast hflat, (getHuffmanCode (lines.flatten.getLast hflat) root).2,
      by rw [← hcodelast], List.dropLast_prefix _, hqne⟩
    (by rw [hinitlen]; omega)

/-- Witness for C9 (amended) at the input `"aab"`. -/
theorem C9_truncation_drops_last_witness :
    2 ≤ (countChars [[97, 97, 98]]).length ∧
    ∃ root out, genHuffmanTreeState (getQuantitativeHeap [[97, 97, 98]]) = some (root, []) ∧
      compressFile [[97, 97, 98]] root = some out ∧
      decodeLoop (([[97, 97, 98]] : List (List Nat)).flatten.length + 1)
        (payloadLines out.dropLast) root
        = some ([[97, 97, 98]] : List (List Nat)).flatten.dropLast :=
  ⟨by decide, C9_truncation_drops_last [[97, 97, 98]] (by decide)⟩

/-- Counterexample for C9 as stated: for the input `"aab"` the valid payload
is `b'110'`; truncating it by one byte to `b'11'` makes the decompression
loop return the successful shorter result `"aa"` — no error of any kind is
reported (`get_next_val` answers a plain end of stream mid-traversal). -/
theorem C9_counterexample :
    genHuffmanTreeState (getQuantitativeHeap [[97, 97, 98]])
      = some (.mk 3 (some (.mk 1 none none (some 98))) (some (.mk 2 none none (some 97)))
          none, []) ∧
    compressFile [[97, 97, 98]]
        (.mk 3 (some (.mk 1 none none (some 98))) (some (.mk 2 none none (some 97))) none)
      = some [49, 49, 48] ∧
    decodeLoop 4 [[49, 49]]
        (.mk 3 (some (.mk 1 none none (some 98))) (some (.mk 2 none none (some 97))) none)
      = some [97, 97] := by
  refine ⟨?_, rfl, ?_⟩
  · show genHuffmanTreeState (buildCountsHeap (countChars [[97, 97, 98]])) = _
    rw [show countChars [[97, 97, 98]] = [(97, 2), (98, 1)] from rfl]
    unfold buildCountsHeap
    rw [List.foldl_cons, List.foldl_cons, List.foldl_nil, heappush_nil, heappush_one,
      if_pos (by simp)]
    exact genState_pair _ _
  · have s1 : getNextVal [[49, 49]]
        (some (.mk 3 (some (.mk 1 none none (some 98))) (some (.mk 2 none none (some 97)))
          none))
        = some ([[49]], some 97) := by
      rw [getNextVal_one 49 [49] [] _ (by simp [HuffmanNode.isLeaf]) rfl]
      show getNextVal [[49]] (some (.mk 2 none none (some 97))) = _
      rw [getNextVal_leaf [49] [] _ (by simp [HuffmanNode.isLeaf])]
      rfl
    have s2 : getNextVal [[49]]
        (some (.mk 3 (some (.mk 1 none none (some 98))) (some (.mk 2 none none (some 97)))
          none))
        = some ([[]], some 97) := by
      rw [getNextVal_one 49 [] [] _ (by simp [HuffmanNode.isLeaf]) rfl]
      show getNextVal [[]] (some (.mk 2 none none (some 97))) = _
      rw [getNextVal_leaf [] [] _ (by simp [HuffmanNode.isLeaf])]
      rfl
    have s3 : getNextVal [[]]
        (some (.mk 3 (some (.mk 1 none none (some 98))) (some (.mk 2 none none (some 97)))
          none))
        = some ([], none) := by
      rw [getNextVal_emptyLine [] _ (by simp [HuffmanNode.isLeaf]), getNextVal_nil]
    show (match getNextVal [[49, 49]]
        (some (.mk 3 (some (.mk 1 none none (some 98))) (some (.mk 2 none none (some 97)))
          none)) with
      | none => none
      | some (_, none) => some []
      | some (file', some v) =>
        (decodeLoop 3 file'
          (.mk 3 (some (.mk 1 none none (some 98))) (some (.mk 2 none none (some 97)))
            none)).map (fun s => v :: s)) = some [97, 97]
    rw [s1]
    show (decodeLoop 3 [[49]]
        (.mk 3 (some (.mk 1 none none (some 98))) (some (.mk 2 none none (some 97)))
          none)).map (fun s => (97 : Nat) :: s) = some [97, 97]
    have d2 : decodeLoop 3 [[49]]
        (.mk 3 (some (.mk 1 none none (some 98))) (some (.mk 2 none none (some 97))) none)
        = some [97] := by
      show (match getNextVal [[49]]
          (some (.mk 3 (some (.mk 1 none none (some 98))) (some (.mk 2 none none (some 97)))
            none)) with
        | none => none
        | some (_, none) => some []
        | some (file', some v) =>
          (decodeLoop 2 file'
            (.mk 3 (some (.mk 1 none none (some 98))) (some (.mk 2 none none (some 97)))
              none)).map (fun s => v :: s)) = some [97]
      rw [s2]
      show (decodeLoop 2 [[]]
          (.mk 3 (some (.mk 1 none none (some 98))) (some (.mk 2 none none (some 97)))
            none)).map (fun s => (97 : Nat) :: s) = some [97]
      have d3 : decodeLoop 2 [[]]
          (.mk 3 (some (.mk 1 none none (some 98))) (some (.mk 2 none none (some 97))) none)
          = some [] := by
        show (match getNextVal [[]]
            (some (.mk 3 (some (.mk 1 none none (some 98)))
              (some (.mk 2 none none (some 97))) none)) with
          | none => none
          | some (_, none) => some []
          | some (file', some v) =>
            (decodeLoop 1 file'
              (.mk 3 (some (.mk 1 none none (some 98))) (some (.mk 2 none none (some 97)))
                none)).map (fun s => v :: s)) = some []
        rw [s3]
      rw [d3]
      rfl
    rw [d2]
    rfl
